import Mathlib

/-!
Verification of the string/URL utility layer of an openHAB editor extension
(`client/src/Utils.ts`), shallowly embedded in Lean 4.

The embedding works on `List Char` (the `data` of a Lean `String`), with
`String`-level wrappers that mirror the TypeScript functions.  JavaScript
regular-expression steps are translated to explicit recursions:

* `/([a-z\d])([A-Z]+)/g → $1_$2` inserts an underscore between a
  lowercase-or-digit character and a following uppercase character (the
  consumed uppercase run can never start a new match, so the pairwise
  insertion below is exactly the global regex replacement);
* `/[-\s]+/g → _` collapses every maximal run of hyphens/whitespace into a
  single underscore;
* `/_id$/ → ""` strips one trailing literal `_id`;
* `/_/g → " "` replaces every underscore by a space.

ASCII scope: the inputs handled by the claims are ASCII, so the JavaScript
whitespace class and `toLowerCase` are modelled on their ASCII portion
(`Char.toLower` lowercases exactly the basic latin letters, as the original
`toLowerCase` does on these inputs).
-/

/-- Character class of the JS regex `[a-z\d]` (lowercase basic latin letter or
decimal digit). -/
def isLowerDigit (c : Char) : Bool :=
  (97 ≤ c.toNat && c.toNat ≤ 122) || (48 ≤ c.toNat && c.toNat ≤ 57)

/-- Character class of the JS regex `[A-Z]` (uppercase basic latin letter). -/
def isUpperC (c : Char) : Bool :=
  65 ≤ c.toNat && c.toNat ≤ 90

/-- ASCII portion of the JS whitespace class `\s` (space, tab, line feed,
vertical tab, form feed, carriage return), by code point. -/
def isJsSpace (c : Char) : Bool :=
  c.toNat = 32 || c.toNat = 9 || c.toNat = 10 || c.toNat = 13 ||
    c.toNat = 11 || c.toNat = 12

/-- Character class of the JS regex `[-\s]` (hyphen or whitespace). -/
def isHS (c : Char) : Bool :=
  c.toNat = 45 || isJsSpace c

/-- JS `String.prototype.trim`: drop leading and trailing whitespace. -/
def trimL (l : List Char) : List Char :=
  ((l.dropWhile isJsSpace).reverse.dropWhile isJsSpace).reverse

/-- Global replacement `/([a-z\d])([A-Z]+)/g → $1_$2`: insert an underscore
between each lowercase-or-digit character and a following uppercase one. -/
def camelIns : List Char → List Char
  | a :: b :: rest =>
    if isLowerDigit a && isUpperC b then a :: '_' :: camelIns (b :: rest)
    else a :: camelIns (b :: rest)
  | l => l

/-- Global replacement `/[-\s]+/g → _`: the flag records whether we are inside
a hyphen/whitespace run (in which case nothing more is emitted for it). -/
def collapseGo : Bool → List Char → List Char
  | _, [] => []
  | inRun, c :: rest =>
    if isHS c then
      if inRun then collapseGo true rest else '_' :: collapseGo true rest
    else c :: collapseGo false rest

/-- JS `toLowerCase` on the ASCII inputs of interest. -/
def lowerL (l : List Char) : List Char := l.map Char.toLower

/-- The suffix removed by the JS regex `/_id$/`. -/
def idSuffix : List Char := ['_', 'i', 'd']

/-- Replacement `/_id$/ → ""`: strip one trailing literal `_id`. -/
def stripId (l : List Char) : List Char :=
  if idSuffix.isSuffixOf l then l.take (l.length - 3) else l

/-- Global replacement `/_/g → " "`. -/
def u2s (l : List Char) : List Char :=
  l.map fun c => if c = '_' then ' ' else c

/-- Lodash `_.upperFirst`: uppercase the first character, keep the rest. -/
def upperFirstL : List Char → List Char
  | [] => []
  | c :: rest => Char.toUpper c :: rest

/-- The `humanize` pipeline of `Utils.ts` on character lists, with the ten
steps in source order: trim, camel-boundary insertion, hyphen/whitespace
collapse, lowercase, camel-boundary insertion again, `_id`-strip,
underscore-to-space, `_id`-strip and underscore-to-space again, trim,
and capitalize the first character. -/
def humanizeL (l : List Char) : List Char :=
  upperFirstL (trimL (u2s (stripId (u2s (stripId
    (camelIns (lowerL (collapseGo false (camelIns (trimL l))))))))))

/-- The exported `humanize` of `Utils.ts`. -/
def humanize (s : String) : String := ⟨humanizeL s.data⟩

/-- Space- or underscore-separated concatenation of a list of words, used to
describe the already-humanized strings of the idempotence claim and the
intermediate shapes of the pipeline. -/
def joinSep (sep : Char) : List (List Char) → List Char
  | [] => []
  | [w] => w
  | w :: v :: rest => w ++ sep :: joinSep sep (v :: rest)

/-- An already-humanized string in the sense of the specification: lowercase
words joined by single spaces, with only the first character capitalized. -/
def humanizedOf (ws : List (List Char)) : List Char :=
  upperFirstL (joinSep ' ' ws)

/-- The `openhab.*` workspace configuration consumed by `getHost`.  Absent
`username`/`password` values behave like the empty string under the
truthiness tests of the source, so they are modelled as `String`. -/
structure Config where
  host : String
  port : Nat
  username : String
  password : String
deriving DecidableEq

/-- The two authentication lines of `getHost`:
`let authentication = (username || '') + (password ? ':' + password : '')`
followed by `authentication += authentication ? '@' : ''`. -/
def authPrefix (username password : String) : String :=
  let authentication :=
    (if username ≠ "" then username else "") ++
      (if password ≠ "" then ":" ++ password else "")
  authentication ++ (if authentication ≠ "" then "@" else "")

/-- The separator `"://"` used by `getHost` for scheme detection. -/
def schemeSep : List Char := [':', '/', '/']

/-- JS `host.includes('://')`: is `"://"` a substring? -/
def containsSep : List Char → Bool
  | [] => false
  | c :: rest => schemeSep.isPrefixOf (c :: rest) || containsSep rest

/-- JS `host.split('://')`: split on every non-overlapping occurrence of
`"://"`, scanning left to right. -/
def splitScheme : List Char → List (List Char)
  | [] => [[]]
  | ':' :: '/' :: '/' :: rest => [] :: splitScheme rest
  | c :: rest =>
    match splitScheme rest with
    | [] => [[c]]
    | r :: rs => (c :: r) :: rs

/-- The prefix of a string up to (excluding) its first occurrence of `"://"`;
the whole string when there is none.  This is `split[0]`, and applied to the
remainder after the first separator it describes `split[1]`. -/
def takeUntilSep : List Char → List Char
  | [] => []
  | ':' :: '/' :: '/' :: _ => []
  | c :: rest => c :: takeUntilSep rest

/-- The `getHost` function of `Utils.ts`: scheme detection via
`split('://')` (taking `split[0]`/`split[1]`), the authentication prefix,
and the port suffix omitted exactly for port 80. -/
def getHost (config : Config) : String :=
  let scheme_host : String × String :=
    if containsSep config.host.data then
      let split := splitScheme config.host.data
      (⟨split.headD []⟩, ⟨(split.drop 1).headD []⟩)
    else ("http", config.host)
  scheme_host.1 ++ "://" ++ authPrefix config.username config.password ++
    scheme_host.2 ++ (if config.port = 80 then "" else ":" ++ toString config.port)

/-- Scheme selected by `getHost` (`split[0]` of the host, or `"http"`). -/
def schemeOf (c : Config) : String :=
  if containsSep c.host.data then ⟨(splitScheme c.host.data).headD []⟩ else "http"

/-- Bare host selected by `getHost` (`split[1]` of the host, or the host). -/
def bareHostOf (c : Config) : String :=
  if containsSep c.host.data then ⟨((splitScheme c.host.data).drop 1).headD []⟩
  else c.host

/-- Port segment of `getHost`: empty for port 80, else `":" + port`. -/
def portSuffix (port : Nat) : String :=
  if port = 80 then "" else ":" ++ toString port

/-- ECMAScript `GetSubstitution` for a plain-string pattern (no capture
groups): in the replacement text, `$$` yields `$`, `$&` the matched text,
`$` followed by the backquote (code 96) the part of the subject before the
match, `$` followed by the apostrophe (code 39) the part after the match;
any other `$` (including `$n`, since there are no captures) is literal. -/
def substDollar (matched before after : List Char) : List Char → List Char
  | [] => []
  | ['$'] => ['$']
  | '$' :: c :: rest =>
    if c = '$' then '$' :: substDollar matched before after rest
    else if c = '&' then matched ++ substDollar matched before after rest
    else if c.toNat = 96 then before ++ substDollar matched before after rest
    else if c.toNat = 39 then after ++ substDollar matched before after rest
    else '$' :: substDollar matched before after (c :: rest)
  | c :: rest => c :: substDollar matched before after rest

/-- JS `String.prototype.replace` with a plain-string pattern: scan left to
right for the first occurrence of `pat` and splice in the replacement after
`GetSubstitution` processing of its `$`-escapes; leave the rest unchanged.
`acc` holds the (reversed) subject prefix already scanned. -/
def jsReplaceFirstGo (pat repl : List Char) : List Char → List Char → List Char
  | acc, [] => if pat = [] then substDollar [] acc.reverse [] repl else []
  | acc, c :: rest =>
    if pat.isPrefixOf (c :: rest) then
      substDollar pat acc.reverse ((c :: rest).drop pat.length) repl ++
        (c :: rest).drop pat.length
    else c :: jsReplaceFirstGo pat repl (c :: acc) rest

/-- JS `s.replace(pat, repl)` with plain-string arguments. -/
def jsReplaceFirst (pat repl s : List Char) : List Char :=
  jsReplaceFirstGo pat repl [] s

/-- String-level wrapper of `jsReplaceFirst`. -/
def strReplaceFirst (s pat repl : String) : String :=
  ⟨jsReplaceFirst pat.data repl.data s.data⟩

/-- Index of the first occurrence of `pat` in `s`, described independently of
the replacement scan: the smallest `i` such that `pat` is a prefix of the
`i`-th tail of `s`. -/
def firstOcc (s pat : List Char) : Option Nat :=
  (List.range (s.length + 1)).find? fun i => pat.isPrefixOf (s.drop i)

/-- Substitution of the first occurrence of a literal token, phrased from the
specification: splice the replacement in at the first-occurrence index. -/
def replaceFirstSpec (s pat repl : List Char) : List Char :=
  match firstOcc s pat with
  | none => s
  | some i => s.take i ++ repl ++ s.drop (i + pat.length)

/-- String-level wrapper of `replaceFirstSpec`. -/
def strReplaceFirstSpec (s pat repl : String) : String :=
  ⟨replaceFirstSpec s.data pat.data repl.data⟩

/-- JS `String.prototype.startsWith` with a plain-string argument: a
character-level prefix test. -/
def jsStartsWith (s pre : String) : Bool :=
  pre.data.isPrefixOf s.data

/-- The URL composition of `openBrowser`:
`url = url.startsWith('http') ? url : getHost() + url` followed by
`url = url.replace('%s', text.replace(' ', '%20'))`, with the already
resolved base URL passed explicitly. -/
def buildUrl (base pathOrFullUrl text : String) : String :=
  let url := if jsStartsWith pathOrFullUrl "http" then pathOrFullUrl
             else base ++ pathOrFullUrl
  strReplaceFirst url "%s" (strReplaceFirst text " " "%20")

/-- One block of the hover document built by `getRestHover`: an
`appendCodeblock`, `appendMarkdown` or `appendText` call on the
`MarkdownString`. -/
inductive Block where
  | code (text lang : String)
  | markdown (text : String)
  | text (s : String)
deriving DecidableEq

/-- A member record of a group item (`member.name`/`member.state` are the
only fields the formatter reads). -/
structure Member where
  name : String
  state : String
deriving DecidableEq

/-- A parsed `/rest/items/{name}` response.  `error` is `none` when the field
is absent; `some ""` models a present but falsy (empty) error value. -/
structure Item where
  name : String
  state : String
  type : String
  members : List Member
  error : Option String
deriving DecidableEq

/-- The code block emitted for one group member. -/
def memberBlock (m : Member) : Block :=
  .code ("Item " ++ m.name ++ " | " ++ m.state) "openhab"

/-- The `members.forEach((member, key, result) => ...)` loop: one code block
per member and, when `Object.is(result.length - 1, key)` fails, a newline
text block after it. -/
def formatMembersAux (total : Nat) : Nat → List Member → List Block
  | _, [] => []
  | key, m :: rest =>
    memberBlock m ::
      (if total - 1 = key then [] else [Block.text "\n"]) ++
        formatMembersAux total (key + 1) rest

/-- The hover-document construction of `getRestHover` for a non-error item:
the group branch emits the group code block, the `##### Members:` heading
and the member loop; the other branch emits a single code block with the
state. -/
def formatItem (it : Item) : List Block :=
  if it.type = "Group" then
    .code ("Item " ++ it.name ++ " | " ++ it.state) "openhab" ::
      .markdown "##### Members:" ::
        formatMembersAux it.members.length 0 it.members
  else [.code it.state "openhab"]

/-- JS truthiness of the `error` field: absent and `""` are falsy. -/
def errTruthy : Option String → Bool
  | none => false
  | some s => s ≠ ""

/-- The `if (!result.error)` branch of `getRestHover`: a formatted document
(a resolved `Hover`) when the error field is falsy, `none` (a resolved
`null`) otherwise. -/
def hoverOutcome (it : Item) : Option (List Block) :=
  if errTruthy it.error then none else some (formatItem it)

/-- A JavaScript value, as far as `handleRequestError` and the rejection
sentinels of this module need: property access on `undefined`/`null` throws,
while primitives are boxed and yield `undefined` for the properties read
here (`error`, `message`), and objects look their fields up. -/
inductive JSVal where
  | undefined
  | null
  | bool (b : Bool)
  | num (n : Int)
  | str (s : String)
  | arr (elems : List JSVal)
  | obj (fields : List (String × JSVal))

/-- Property access `v[k]`: `none` models a thrown `TypeError`. -/
def getProp : JSVal → String → Option JSVal
  | .undefined, _ => none
  | .null, _ => none
  | .obj fields, k => some ((fields.lookup k).getD .undefined)
  | _, _ => some .undefined

/-- The message extraction of `handleRequestError`:
`typeof err.error === 'string' ? err.error : err.error.message`, with `none`
for a thrown `TypeError`. -/
def extractMessage (err : JSVal) : Option JSVal :=
  (getProp err "error").bind fun e =>
    match e with
    | .str s => some (.str s)
    | _ => getProp e "message"

/-- The promise produced by `getRestHover` once the transport outcome is
fixed: on a fetched item, resolve with the formatted hover or with `null`;
on transport rejection, `reject(false)` (the rejection value as `JSVal`). -/
def getRestHoverM : Except String Item → Except JSVal (Option (List Block))
  | .ok it => .ok (hoverOutcome it)
  | .error _ => .error (.bool false)

/-- A parsed `/rest/services/org.eclipse.smarthome.links/config` response. -/
structure SimpleModeConfig where
  autoLinks : Bool
deriving DecidableEq

/-- The promise produced by `getSimpleModeState`: resolve with `autoLinks`,
or `reject([])` on transport rejection. -/
def getSimpleModeStateM : Except String SimpleModeConfig → Except JSVal Bool
  | .ok cfg => .ok cfg.autoLinks
  | .error _ => .error (.arr [])

/-- The promise produced by `getSitemaps`: resolve with the parsed sitemap
list, or `reject([])` on transport rejection. -/
def getSitemapsM : Except String (List String) → Except JSVal (List String)
  | .ok sitemaps => .ok sitemaps
  | .error _ => .error (.arr [])

/-- A word of an already-humanized string: lowercase letters and digits. -/
def wordChars (w : List Char) : Prop :=
  ∀ c ∈ w, isLowerDigit c = true

/-- The `err.error` access of `handleRequestError` evaluates to a nullish
value (or already throws): `err` itself is `undefined`/`null`, or its
`error` field is `undefined` (in particular absent) or `null`. -/
def errorFieldNullish (err : JSVal) : Prop :=
  getProp err "error" = none ∨ getProp err "error" = some .undefined ∨
    getProp err "error" = some .null

/-! ## Helper lemmas -/

theorem str_eq_empty_iff (s : String) : s = "" ↔ s.data = [] :=
  ⟨fun h => h ▸ rfl, String.ext⟩

theorem str_ne_empty_of_cons {s : String} {c : Char} {l : List Char}
    (h : s.data = c :: l) : s ≠ "" := by
  intro he
  rw [str_eq_empty_iff] at he
  rw [he] at h
  exact List.noConfusion h

/-! ## C1 -/

/-- C1 (corrected): the claim asserts that with an empty username the
authentication prefix is empty regardless of the password; in fact an empty
username together with the non-empty password `"pw"` yields the prefix
`":pw@"`, so the password does appear. -/
theorem auth_prefix_empty_username_counterexample :
    authPrefix "" "pw" = ":pw@" ∧ authPrefix "" "pw" ≠ "" := by
  refine ⟨by decide, by decide⟩

/-- C1 (amended): the authentication prefix starts with the username when it
is non-empty, appends `":" + password` whenever the password is non-empty
(regardless of the username), and appends `"@"` exactly when any
authentication text was produced; it is empty only when username and
password are both empty. -/
theorem auth_prefix_characterization (u p : String) :
    authPrefix u p =
      if u = "" ∧ p = "" then ""
      else u ++ (if p = "" then "" else ":" ++ p) ++ "@" := by
  have hcp : (":" ++ p : String) ≠ "" := str_ne_empty_of_cons (l := p.data) rfl
  have hucp : (u ++ (":" ++ p) : String) ≠ "" := by
    intro h
    rw [str_eq_empty_iff, String.data_append] at h
    exact hcp ((str_eq_empty_iff _).mpr (List.append_eq_nil.mp h).2)
  by_cases hu : u = "" <;> by_cases hp : p = "" <;>
    simp [authPrefix, hu, hp]
  · rw [if_neg hcp]
  · rw [if_neg hucp]

/-! ## C3 -/

/-- C3 (confirmed): the humanize pipeline maps `"some_item_id"` to
`"Some item"`, `"someCamelCaseName"` to `"Some camel case name"`, and the
empty string to itself. -/
theorem humanize_examples :
    humanize "some_item_id" = "Some item" ∧
      humanize "someCamelCaseName" = "Some camel case name" ∧
        humanize "" = "" := by
  refine ⟨by decide, by decide, by decide⟩

/-! ## C9 -/

/-- C9 (confirmed): whatever detail the transport rejection carries, each
network-backed operation maps it to its fixed sentinel — `false` for
`getRestHover`, the empty array for `getSimpleModeState` and `getSitemaps` —
so no structured error is propagated. -/
theorem transport_rejection_sentinels (e : String) :
    getRestHoverM (.error e) = .error (.bool false) ∧
      getSimpleModeStateM (.error e) = .error (.arr []) ∧
        getSitemapsM (.error e) = .error (.arr []) :=
  ⟨rfl, rfl, rfl⟩

/-! ## C2 -/

theorem formatMembersAux_eq_intersperse (ms : List Member) :
    ∀ key total, key + ms.length = total →
      formatMembersAux total key ms =
        List.intersperse (Block.text "\n") (ms.map memberBlock) := by
  induction ms with
  | nil => intro key total h; rfl
  | cons m rest ih =>
    intro key total h
    cases rest with
    | nil =>
      have ht : total - 1 = key := by simp at h; omega
      simp [formatMembersAux, ht]
    | cons m2 rest2 =>
      have ht : ¬(total - 1 = key) := by simp at h; omega
      have hrec := ih (key + 1) total (by simp at h ⊢; omega)
      calc formatMembersAux total key (m :: m2 :: rest2)
          = memberBlock m ::
              (if total - 1 = key then [] else [Block.text "\n"]) ++
                formatMembersAux total (key + 1) (m2 :: rest2) := rfl
        _ = memberBlock m :: Block.text "\n" ::
              List.intersperse (Block.text "\n")
                ((m2 :: rest2).map memberBlock) := by rw [if_neg ht, hrec]; rfl
        _ = List.intersperse (Block.text "\n")
              ((m :: m2 :: rest2).map memberBlock) := by
            simp [List.intersperse_cons_cons]

/-- C2 (confirmed): on a `"Group"` item the hover document is the group code
block, the `Members:` heading, then one code block per member in order,
interleaved with newline separators — a separator after every member block
except the last, never after the final one; on the example group with
members A and B this is exactly 4 blocks with the single separator between
the two member blocks. -/
theorem group_hover_structure :
    (∀ it : Item, it.type = "Group" → it.members ≠ [] →
      formatItem it =
        .code ("Item " ++ it.name ++ " | " ++ it.state) "openhab" ::
          .markdown "##### Members:" ::
            List.intersperse (Block.text "\n") (it.members.map memberBlock)) ∧
      formatItem ⟨"G", "ON", "Group", [⟨"A", "ON"⟩, ⟨"B", "OFF"⟩], none⟩ =
        [.code "Item G | ON" "openhab", .markdown "##### Members:",
          .code "Item A | ON" "openhab", .text "\n",
            .code "Item B | OFF" "openhab"] := by
  constructor
  · intro it htype _
    simp only [formatItem, htype, if_pos]
    rw [formatMembersAux_eq_intersperse it.members 0 it.members.length (by omega)]
  · decide

/-- Witness for C2: the structure theorem applied to the concrete example
group, with its hypotheses discharged by evaluation. -/
theorem group_hover_structure_witness :
    formatItem ⟨"G", "ON", "Group", [⟨"A", "ON"⟩, ⟨"B", "OFF"⟩], none⟩ =
      [.code "Item G | ON" "openhab", .markdown "##### Members:",
        .code "Item A | ON" "openhab", .text "\n",
          .code "Item B | OFF" "openhab"] := by
  have h := group_hover_structure.1
    ⟨"G", "ON", "Group", [⟨"A", "ON"⟩, ⟨"B", "OFF"⟩], none⟩ rfl (by decide)
  rw [h]; decide

/-! ## C4 -/

/-- C4 (corrected): the claim asserts that port 80, a scheme-free host and an
empty username give exactly `"http://" + host`; but with the non-empty
password `"pw"` the configuration `{host := "h", port := 80}` yields
`"http://:pw@h"`, which still carries an authentication segment. -/
theorem getHost_port80_counterexample :
    getHost ⟨"h", 80, "", "pw"⟩ = "http://:pw@h" ∧
      getHost ⟨"h", 80, "", "pw"⟩ ≠ "http://" ++ "h" := by
  refine ⟨by decide, by decide⟩

/-- C4 (amended): with port 80, a scheme-free host and username *and
password* both empty, `getHost` returns exactly `"http://" + host`; and in
general the result is scheme ++ `"://"` ++ authentication prefix ++ bare
host ++ port suffix, the port suffix being empty exactly when the port
is 80. -/
theorem getHost_composition :
    (∀ c : Config, c.port = 80 → containsSep c.host.data = false →
      c.username = "" → c.password = "" → getHost c = "http://" ++ c.host) ∧
      ∀ c : Config,
        getHost c = schemeOf c ++ "://" ++ authPrefix c.username c.password ++
          bareHostOf c ++ portSuffix c.port := by
  constructor
  · intro c h80 hsep hu hp
    have hauth : authPrefix "" "" = "" := by decide
    simp only [getHost, hsep, h80, hu, hp, Bool.false_eq_true, if_false,
      if_pos, hauth]
    rw [String.append_empty, String.append_empty]
    rfl
  · intro c
    unfold getHost schemeOf bareHostOf portSuffix
    by_cases h : containsSep c.host.data <;> simp [h]

/-- Witness for C4: both parts of the composition theorem applied to a
concrete configuration. -/
theorem getHost_composition_witness :
    getHost ⟨"myhab", 80, "", ""⟩ = "http://" ++ "myhab" ∧
      getHost ⟨"myhab", 8080, "bob", "pw"⟩ =
        schemeOf ⟨"myhab", 8080, "bob", "pw"⟩ ++ "://" ++ authPrefix "bob" "pw" ++
          bareHostOf ⟨"myhab", 8080, "bob", "pw"⟩ ++ portSuffix 8080 :=
  ⟨getHost_composition.1 ⟨"myhab", 80, "", ""⟩ rfl (by decide) rfl rfl,
    getHost_composition.2 ⟨"myhab", 8080, "bob", "pw"⟩⟩

/-! ## C8 -/

/-- C8 (corrected): the claim says any response that *carries* an `error`
field resolves to "no document"; but the branch tests JS truthiness, so the
present-but-empty error value `""` is treated as sane data and the item is
formatted into a hover instead of resolving to `null`. -/
theorem restHover_falsy_error_counterexample :
    getRestHoverM (.ok ⟨"X", "ON", "Switch", [], some ""⟩) =
      .ok (some [.code "ON" "openhab"]) ∧
      getRestHoverM (.ok ⟨"X", "ON", "Switch", [], some ""⟩) ≠ .ok none := by
  refine ⟨rfl, by simp [getRestHoverM, hoverOutcome, errTruthy]⟩

/-- C8 (amended): for every response item whose `error` field is truthy
(present and non-empty), the formatter output never appears: the promise
resolves to `null` (no document), an outcome distinct from the transport
rejection. -/
theorem restHover_error_resolves_null (it : Item) (e : String)
    (h : errTruthy it.error = true) :
    getRestHoverM (.ok it) = .ok none ∧
      getRestHoverM (.error e) ≠ getRestHoverM (.ok it) := by
  refine ⟨by simp [getRestHoverM, hoverOutcome, h], by simp [getRestHoverM]⟩

/-- Witness for C8: the not-found theorem applied to a concrete error
response. -/
theorem restHover_error_resolves_null_witness :
    getRestHoverM (.ok ⟨"X", "NULL", "Switch", [], some "Item X does not exist!"⟩) =
      .ok none ∧
      getRestHoverM (.error "ECONNREFUSED") ≠
        getRestHoverM (.ok ⟨"X", "NULL", "Switch", [], some "Item X does not exist!"⟩) :=
  restHover_error_resolves_null
    ⟨"X", "NULL", "Switch", [], some "Item X does not exist!"⟩
    "ECONNREFUSED" (by decide)

/-! ## C10 -/

/-- C10 (corrected): the claim says message extraction fails whenever
`err.error` is absent *or not an object*; but a present non-object,
non-string `error` value is boxed by JS property access, so
`{error: false}` evaluates to `undefined` without failing. -/
theorem extractMessage_nonobject_counterexample :
    extractMessage (.obj [("error", .bool false)]) = some .undefined ∧
      extractMessage (.obj [("error", .bool false)]) ≠ none := by
  refine ⟨rfl, by simp [extractMessage, getProp]⟩

/-- C10 (amended): message extraction fails exactly when the `err.error`
access is nullish — `err` itself nullish, or its `error` field `undefined`
(in particular absent) or `null`; in particular it does fail on the very
rejection sentinels `false` and `[]` that this module's operations reject
with, since neither carries an `error` property. -/
theorem extractMessage_failure_characterization :
    (∀ err : JSVal, extractMessage err = none ↔ errorFieldNullish err) ∧
      extractMessage (.bool false) = none ∧ extractMessage (.arr []) = none := by
  refine ⟨?_, rfl, rfl⟩
  intro err
  unfold extractMessage errorFieldNullish
  cases h : getProp err "error" with
  | none => simp
  | some e => cases e <;> simp [getProp]

/-! ## C5 -/

theorem isPrefixOf_eq_false_iff (l1 l2 : List Char) :
    l1.isPrefixOf l2 = false ↔ ¬ l1 <+: l2 := by
  rw [← List.isPrefixOf_iff_prefix]
  cases l1.isPrefixOf l2 <;> simp

theorem firstOcc_cons_of_no_match (c : Char) (rest pat : List Char)
    (h : pat.isPrefixOf (c :: rest) = false) :
    firstOcc (c :: rest) pat = (firstOcc rest pat).map (· + 1) := by
  unfold firstOcc
  rw [show (c :: rest).length + 1 = (rest.length + 1) + 1 from rfl,
    List.range_succ_eq_map]
  rw [List.find?_cons_of_neg _
    (by simpa using (isPrefixOf_eq_false_iff pat (c :: rest)).mp h)]
  rw [List.find?_map]
  rfl

theorem substDollar_of_no_dollar (m b a : List Char) :
    ∀ repl, (∀ c ∈ repl, c ≠ '$') → substDollar m b a repl = repl := by
  intro repl
  induction repl with
  | nil => intro _; rfl
  | cons c t ih =>
    intro h
    have hc : c ≠ '$' := h c (by simp)
    rw [substDollar.eq_def]
    split
    · rename_i heq
      exact absurd heq (by simp)
    · rename_i heq
      injection heq with hc2 _
      exact absurd hc2 hc
    · rename_i c2 rest2 heq
      injection heq with hc2 _
      exact absurd hc2 hc
    · rename_i gen c2 rest2 hex1 hex2 heq
      injection heq with hc2 htl
      subst hc2
      subst htl
      rw [ih fun x hx => h x (List.mem_cons_of_mem c hx)]

theorem jsReplaceFirstGo_eq_spec (pat repl : List Char) (hp : pat ≠ [])
    (hr : ∀ c ∈ repl, c ≠ '$') :
    ∀ s acc, jsReplaceFirstGo pat repl acc s = replaceFirstSpec s pat repl := by
  intro s
  induction s with
  | nil =>
    intro acc
    have hb : pat.isPrefixOf ([] : List Char) = false := by
      cases pat with
      | nil => exact absurd rfl hp
      | cons a t => rfl
    show (if pat = [] then substDollar [] acc.reverse [] repl else []) = _
    rw [if_neg hp]
    simp [replaceFirstSpec, firstOcc, List.range, hb, List.range.loop,
      List.find?]
  | cons c rest ih =>
    intro acc
    by_cases hpre : pat.isPrefixOf (c :: rest) = true
    · rw [show jsReplaceFirstGo pat repl acc (c :: rest) =
        substDollar pat acc.reverse ((c :: rest).drop pat.length) repl ++
          (c :: rest).drop pat.length from by
            simp [jsReplaceFirstGo, hpre]]
      rw [substDollar_of_no_dollar _ _ _ repl hr]
      unfold replaceFirstSpec firstOcc
      rw [show (c :: rest).length + 1 = (rest.length + 1) + 1 from rfl,
        List.range_succ_eq_map]
      rw [List.find?_cons_of_pos _ (by simpa using hpre)]
      simp
    · have hpre' : pat.isPrefixOf (c :: rest) = false := by
        cases hval : pat.isPrefixOf (c :: rest) with
        | false => rfl
        | true => exact absurd hval hpre
      rw [show jsReplaceFirstGo pat repl acc (c :: rest) =
        c :: jsReplaceFirstGo pat repl (c :: acc) rest from by
          simp [jsReplaceFirstGo, hpre']]
      rw [ih (c :: acc)]
      unfold replaceFirstSpec
      rw [firstOcc_cons_of_no_match c rest pat hpre']
      cases hocc : firstOcc rest pat with
      | none => rfl
      | some i =>
        show c :: (rest.take i ++ repl ++ rest.drop (i + pat.length)) =
          (c :: rest).take (i + 1) ++ repl ++
            (c :: rest).drop (i + 1 + pat.length)
        rw [List.take_succ_cons,
          show i + 1 + pat.length = (i + pat.length) + 1 from by omega,
          List.drop_succ_cons]
        rfl

theorem jsReplaceFirst_eq_spec (pat repl : List Char) (hp : pat ≠ [])
    (hr : ∀ c ∈ repl, c ≠ '$') (s : List Char) :
    jsReplaceFirst pat repl s = replaceFirstSpec s pat repl :=
  jsReplaceFirstGo_eq_spec pat repl hp hr s []

theorem jsReplaceFirstGo_no_dollar (pat repl : List Char)
    (hr : ∀ c ∈ repl, c ≠ '$') :
    ∀ s acc, (∀ x ∈ s, x ≠ '$') →
      ∀ c ∈ jsReplaceFirstGo pat repl acc s, c ≠ '$' := by
  intro s
  induction s with
  | nil =>
    intro acc _ c hc
    by_cases hp : pat = []
    · rw [show jsReplaceFirstGo pat repl acc [] =
        (if pat = [] then substDollar [] acc.reverse [] repl else []) from rfl,
        if_pos hp, substDollar_of_no_dollar _ _ _ repl hr] at hc
      exact hr c hc
    · rw [show jsReplaceFirstGo pat repl acc [] =
        (if pat = [] then substDollar [] acc.reverse [] repl else []) from rfl,
        if_neg hp] at hc
      exact absurd hc (List.not_mem_nil c)
  | cons d rest ih =>
    intro acc hs c hc
    rw [show jsReplaceFirstGo pat repl acc (d :: rest) =
      (if pat.isPrefixOf (d :: rest) then
        substDollar pat acc.reverse ((d :: rest).drop pat.length) repl ++
          (d :: rest).drop pat.length
       else d :: jsReplaceFirstGo pat repl (d :: acc) rest) from rfl] at hc
    by_cases hpre : pat.isPrefixOf (d :: rest) = true
    · rw [if_pos hpre, substDollar_of_no_dollar _ _ _ repl hr] at hc
      rcases List.mem_append.mp hc with h1 | h2
      · exact hr c h1
      · exact hs c (List.mem_of_mem_drop h2)
    · rw [if_neg hpre] at hc
      rcases List.mem_cons.mp hc with h1 | h2
      · subst h1
        exact hs c (by simp)
      · exact ih (d :: acc) (fun x hx => hs x (List.mem_cons_of_mem d hx)) c h2

/-- C5 (corrected): the claim says the caller-supplied fragment (with its
first space escaped) is substituted for `"%s"`; but JS `replace` applies
`$`-escape substitution to the replacement string, so for the fragment
`"$&"` the program re-inserts the matched token `"%s"` itself instead of
the fragment. -/
theorem buildUrl_dollar_counterexample :
    buildUrl "http://h" "/app?%s" "$&" = "http://h/app?%s" ∧
      buildUrl "http://h" "/app?%s" "$&" ≠
        strReplaceFirstSpec ("http://h" ++ "/app?%s") "%s"
          (strReplaceFirstSpec "$&" " " "%20") := by
  refine ⟨by decide, by decide⟩

/-- C5 (amended): for every fragment containing no `$` (so `GetSubstitution`
inserts it literally), the composed URL is the path itself when it begins
with `"http"` and `base ++ path` otherwise, and the first occurrence of the
literal token `"%s"` is then substituted with the fragment in which only the
first space has been replaced by `"%20"`; on the example this yields
`"http://h:8080/basicui/app?my%20item"`. -/
theorem buildUrl_substitution :
    (∀ base p t : String, jsStartsWith p "http" = true →
      (∀ c ∈ t.data, c ≠ '$') →
      buildUrl base p t =
        strReplaceFirstSpec p "%s" (strReplaceFirstSpec t " " "%20")) ∧
      (∀ base p t : String, jsStartsWith p "http" = false →
        (∀ c ∈ t.data, c ≠ '$') →
        buildUrl base p t =
          strReplaceFirstSpec (base ++ p) "%s" (strReplaceFirstSpec t " " "%20")) ∧
        buildUrl "http://h:8080" "/basicui/app?%s" "my item" =
          "http://h:8080/basicui/app?my%20item" := by
  refine ⟨?_, ?_, by decide⟩
  · intro base p t h hd
    have hnod : ∀ c ∈ jsReplaceFirst " ".data "%20".data t.data, c ≠ '$' :=
      jsReplaceFirstGo_no_dollar _ _ (by decide) t.data [] hd
    simp only [buildUrl, h, if_pos, strReplaceFirst, strReplaceFirstSpec]
    rw [jsReplaceFirst_eq_spec _ _ (by decide) hnod p.data,
      jsReplaceFirst_eq_spec _ _ (by decide) (by decide) t.data]
  · intro base p t h hd
    have hnod : ∀ c ∈ jsReplaceFirst " ".data "%20".data t.data, c ≠ '$' :=
      jsReplaceFirstGo_no_dollar _ _ (by decide) t.data [] hd
    simp only [buildUrl, h, Bool.false_eq_true, if_false, strReplaceFirst,
      strReplaceFirstSpec]
    rw [jsReplaceFirst_eq_spec _ _ (by decide) hnod (base ++ p).data,
      jsReplaceFirst_eq_spec _ _ (by decide) (by decide) t.data]

/-- Witness for C5: both branches of the substitution theorem applied to
concrete URLs with dollar-free fragments. -/
theorem buildUrl_substitution_witness :
    buildUrl "http://h:8080" "/basicui/app?%s" "my item" =
      strReplaceFirstSpec ("http://h:8080" ++ "/basicui/app?%s") "%s"
        (strReplaceFirstSpec "my item" " " "%20") ∧
      buildUrl "" "http://x?%s" "a b" =
        strReplaceFirstSpec "http://x?%s" "%s" (strReplaceFirstSpec "a b" " " "%20") :=
  ⟨buildUrl_substitution.2.1 "http://h:8080" "/basicui/app?%s" "my item"
      (by decide) (by decide),
    buildUrl_substitution.1 "" "http://x?%s" "a b" (by decide) (by decide)⟩

/-! ## C7 -/

theorem splitScheme_ne_nil (l : List Char) : splitScheme l ≠ [] := by
  rw [splitScheme.eq_def]
  split
  · simp
  · simp
  · split <;> simp

theorem containsSep_append_sep (a b : List Char) :
    containsSep (a ++ ':' :: '/' :: '/' :: b) = true := by
  induction a with
  | nil => simp [containsSep, schemeSep, List.isPrefixOf]
  | cons c a ih =>
    show (schemeSep.isPrefixOf (c :: (a ++ ':' :: '/' :: '/' :: b)) ||
      containsSep (a ++ ':' :: '/' :: '/' :: b)) = true
    rw [ih, Bool.or_true]

theorem splitScheme_append_sep (b : List Char) :
    ∀ a : List Char, containsSep a = false →
      splitScheme (a ++ ':' :: '/' :: '/' :: b) = a :: splitScheme b := by
  intro a
  induction a with
  | nil => intro _; rfl
  | cons c a' ih =>
    intro h
    have hsep : schemeSep.isPrefixOf (c :: a') = false ∧ containsSep a' = false :=
      Bool.or_eq_false_iff.mp h
    rw [List.cons_append, splitScheme.eq_def]
    split
    · rename_i heq
      exact absurd heq (by simp)
    · rename_i rest' heq
      injection heq with hc htl
      subst hc
      rcases a' with _ | ⟨x, _ | ⟨y, a''⟩⟩
      · injection htl with h1 _
        exact absurd h1 (by decide)
      · injection htl with h1 h2
        injection h2 with h2a _
        exact absurd h2a (by decide)
      · injection htl with hx h2
        injection h2 with hy _
        subst hx; subst hy
        exact absurd hsep.1 (by simp [schemeSep, List.isPrefixOf])
    · rename_i gen c2 rest2 hex heq
      injection heq with hc htl
      subst hc
      rw [← htl, ih hsep.2]

theorem takeUntilSep_cons_eq (c : Char) (rest : List Char)
    (hex : ∀ t : List Char, c = ':' → rest = '/' :: '/' :: t → False) :
    takeUntilSep (c :: rest) = c :: takeUntilSep rest := by
  rw [takeUntilSep.eq_def]
  split
  · rename_i x heq
    exact absurd heq (by simp)
  · rename_i x rest2 heq
    injection heq with hc htl
    exact (hex rest2 hc htl).elim
  · rename_i gen c2 rest2 hex2 heq
    injection heq with hc htl
    subst hc
    subst htl
    rfl

theorem splitScheme_cons_eq (c : Char) (rest : List Char)
    (hex : ∀ t : List Char, c = ':' → rest = '/' :: '/' :: t → False) :
    splitScheme (c :: rest) =
      match splitScheme rest with
      | [] => [[c]]
      | r :: rs => (c :: r) :: rs := by
  rw [splitScheme.eq_def]
  split
  · rename_i x heq
    exact absurd heq (by simp)
  · rename_i x rest2 heq
    injection heq with hc htl
    exact (hex rest2 hc htl).elim
  · rename_i gen c2 rest2 hex2 heq
    injection heq with hc htl
    subst hc
    subst htl
    rfl

theorem headD_splitScheme (l : List Char) :
    (splitScheme l).headD [] = takeUntilSep l := by
  induction l with
  | nil => rfl
  | cons c rest ih =>
    by_cases hc : ∃ t : List Char, c = ':' ∧ rest = '/' :: '/' :: t
    · obtain ⟨t, hc1, hc2⟩ := hc
      subst hc1; subst hc2
      rfl
    · have hex : ∀ t : List Char, c = ':' → rest = '/' :: '/' :: t → False :=
        fun t h1 h2 => hc ⟨t, h1, h2⟩
      rw [splitScheme_cons_eq c rest hex, takeUntilSep_cons_eq c rest hex]
      cases hs : splitScheme rest with
      | nil => exact absurd hs (splitScheme_ne_nil rest)
      | cons r rs =>
        show c :: r = c :: takeUntilSep rest
        rw [← ih, hs]
        rfl

theorem takeUntilSep_of_not_contains (b : List Char)
    (h : containsSep b = false) : takeUntilSep b = b := by
  induction b with
  | nil => rfl
  | cons c rest ih =>
    have hsp : schemeSep.isPrefixOf (c :: rest) = false ∧ containsSep rest = false :=
      Bool.or_eq_false_iff.mp h
    have hex : ∀ t : List Char, c = ':' → rest = '/' :: '/' :: t → False := by
      intro t h1 h2
      subst h1; subst h2
      exact absurd hsp.1 (by simp [schemeSep, List.isPrefixOf])
    rw [takeUntilSep_cons_eq c rest hex, ih hsp.2]

/-- C7 (corrected): the claim says everything after the first `"://"`
becomes the bare host; but `split('://')` splits on *every* occurrence and
the code takes `split[1]`, so for `"http://a://b"` the bare host is just
`"a"` — the text after the second separator is dropped. -/
theorem getHost_double_sep_counterexample :
    getHost ⟨"http://a://b", 80, "", ""⟩ = "http://a" ∧
      getHost ⟨"http://a://b", 80, "", ""⟩ ≠ "http://a://b" := by
  refine ⟨by decide, by decide⟩

/-- C7 (amended): when the host contains `"://"`, the text before the first
occurrence becomes the scheme and the segment between the first and second
occurrences becomes the bare host (which is everything after the first
occurrence exactly when `"://"` occurs only once, since `takeUntilSep` is
the identity on separator-free text); without `"://"` the scheme defaults to
`"http"` and the host is used as-is. -/
theorem getHost_scheme_split :
    (∀ (a b : List Char) (port : Nat) (u pw : String), containsSep a = false →
      getHost ⟨⟨a ++ ':' :: '/' :: '/' :: b⟩, port, u, pw⟩ =
        (⟨a⟩ : String) ++ "://" ++ authPrefix u pw ++
          (⟨takeUntilSep b⟩ : String) ++ portSuffix port) ∧
      (∀ (host : String) (port : Nat) (u pw : String),
        containsSep host.data = false →
        getHost ⟨host, port, u, pw⟩ =
          "http" ++ "://" ++ authPrefix u pw ++ host ++ portSuffix port) ∧
        ∀ b : List Char, containsSep b = false → takeUntilSep b = b := by
  refine ⟨?_, ?_, takeUntilSep_of_not_contains⟩
  · intro a b port u pw h
    have hcontains : containsSep (a ++ ':' :: '/' :: '/' :: b) = true :=
      containsSep_append_sep a b
    simp only [getHost, hcontains, if_true, splitScheme_append_sep b a h,
      List.headD_cons, List.drop_succ_cons, List.drop_zero, headD_splitScheme,
      portSuffix]
  · intro host port u pw h
    simp only [getHost, h, Bool.false_eq_true, if_false, portSuffix]

/-- Witness for C7: both branches of the scheme-split theorem applied to
concrete hosts. -/
theorem getHost_scheme_split_witness :
    getHost ⟨⟨"https".data ++ ':' :: '/' :: '/' :: "hab.local".data⟩, 80, "", ""⟩ =
      (⟨"https".data⟩ : String) ++ "://" ++ authPrefix "" "" ++
        (⟨takeUntilSep "hab.local".data⟩ : String) ++ portSuffix 80 ∧
      getHost ⟨"demo.openhab.org", 8080, "", ""⟩ =
        "http" ++ "://" ++ authPrefix "" "" ++ "demo.openhab.org" ++
          portSuffix 8080 :=
  ⟨getHost_scheme_split.1 "https".data "hab.local".data 80 "" "" (by decide),
    getHost_scheme_split.2.1 "demo.openhab.org" 8080 "" "" (by decide)⟩

/-! ## C6 -/

theorem charOfNat_toNat {n : Nat} (h : n < 55296) : (Char.ofNat n).toNat = n := by
  have hv : n.isValidChar := Or.inl h
  unfold Char.ofNat
  rw [dif_pos hv]
  simp [Char.ofNatAux, Char.toNat, UInt32.toNat, BitVec.toNat_ofNatLt]

theorem toUpper_toNat {c : Char} (h97 : 97 ≤ c.toNat) (h122 : c.toNat ≤ 122) :
    (Char.toUpper c).toNat = c.toNat - 32 := by
  unfold Char.toUpper
  rw [if_pos ⟨h97, h122⟩]
  exact charOfNat_toNat (by omega)

theorem toLower_eq_self {c : Char} (h : ¬(65 ≤ c.toNat ∧ c.toNat ≤ 90)) :
    Char.toLower c = c := by
  unfold Char.toLower
  rw [if_neg h]

theorem toLower_toUpper_eq_self {c : Char} (h97 : 97 ≤ c.toNat)
    (h122 : c.toNat ≤ 122) : Char.toLower (Char.toUpper c) = c := by
  have ht := toUpper_toNat h97 h122
  unfold Char.toLower
  rw [if_pos (by omega)]
  rw [show (Char.toUpper c).toNat + 32 = c.toNat from by omega,
    Char.ofNat_toNat]

theorem dropWhile_eq_self_of_head (l : List Char)
    (h : ∀ c, l.head? = some c → isJsSpace c = false) :
    l.dropWhile isJsSpace = l := by
  cases l with
  | nil => rfl
  | cons a t => rw [List.dropWhile_cons_of_neg (by simp [h a rfl])]

theorem trimL_eq_self (l : List Char)
    (hh : ∀ c, l.head? = some c → isJsSpace c = false)
    (hl : ∀ c, l.getLast? = some c → isJsSpace c = false) :
    trimL l = l := by
  unfold trimL
  rw [dropWhile_eq_self_of_head l hh]
  have hr : l.reverse.dropWhile isJsSpace = l.reverse := by
    apply dropWhile_eq_self_of_head
    intro c hc
    rw [List.head?_reverse] at hc
    exact hl c hc
  rw [hr, List.reverse_reverse]

theorem camelIns_of_no_upper (l : List Char)
    (h : ∀ c ∈ l, isUpperC c = false) : camelIns l = l := by
  induction l with
  | nil => rfl
  | cons a t ih =>
    cases t with
    | nil => rfl
    | cons b t2 =>
      have hb : isUpperC b = false := h b (by simp)
      rw [show camelIns (a :: b :: t2) =
        if isLowerDigit a && isUpperC b then a :: '_' :: camelIns (b :: t2)
        else a :: camelIns (b :: t2) from rfl]
      rw [hb, Bool.and_false, if_neg (by simp)]
      rw [ih (fun c hc => h c (List.mem_cons_of_mem a hc))]

theorem camelIns_cons_not_lower (a : Char) (l : List Char)
    (ha : isLowerDigit a = false) : camelIns (a :: l) = a :: camelIns l := by
  cases l with
  | nil => rfl
  | cons b t =>
    rw [show camelIns (a :: b :: t) =
      if isLowerDigit a && isUpperC b then a :: '_' :: camelIns (b :: t)
      else a :: camelIns (b :: t) from rfl]
    rw [ha, Bool.false_and, if_neg (by simp)]

theorem collapseGo_cons_not_hs (mode : Bool) (c : Char) (l : List Char)
    (h : isHS c = false) : collapseGo mode (c :: l) = c :: collapseGo false l := by
  rw [show collapseGo mode (c :: l) =
    if isHS c then
      (if mode then collapseGo true l else '_' :: collapseGo true l)
    else c :: collapseGo false l from rfl]
  rw [h, if_neg (by simp)]

theorem collapseGo_false_space (l : List Char) :
    collapseGo false (' ' :: l) = '_' :: collapseGo true l := rfl

theorem collapse_word_append (w : List Char) :
    ∀ (hw : ∀ c ∈ w, isHS c = false) (hne : w ≠ []) (mode : Bool) (l : List Char),
      collapseGo mode (w ++ l) = w ++ collapseGo false l := by
  induction w with
  | nil => exact fun _ hne => absurd rfl hne
  | cons c w' ih =>
    intro hw _ mode l
    rw [List.cons_append, collapseGo_cons_not_hs mode c _ (hw c (by simp))]
    cases w' with
    | nil => rfl
    | cons d w'' =>
      rw [ih (fun x hx => hw x (List.mem_cons_of_mem c hx)) (by simp) false l]
      rfl

theorem joinSep_ne_nil (sep : Char) (ws : List (List Char))
    (hws : ∀ w ∈ ws, w ≠ []) (hne : ws ≠ []) : joinSep sep ws ≠ [] := by
  cases ws with
  | nil => exact absurd rfl hne
  | cons w ws' =>
    cases ws' with
    | nil => exact hws w (by simp)
    | cons v rest =>
      show w ++ sep :: joinSep sep (v :: rest) ≠ []
      simp

theorem collapse_joinSep (ws : List (List Char))
    (hws : ∀ w ∈ ws, w ≠ [] ∧ ∀ c ∈ w, isHS c = false) :
    collapseGo false (joinSep ' ' ws) = joinSep '_' ws := by
  induction ws with
  | nil => rfl
  | cons w ws' ih =>
    cases ws' with
    | nil =>
      show collapseGo false w = w
      obtain ⟨hne, hw⟩ := hws w (by simp)
      have h := collapse_word_append w hw hne false []
      rw [List.append_nil] at h
      exact h.trans (by
        rw [show collapseGo false ([] : List Char) = [] from rfl,
          List.append_nil])
    | cons v rest =>
      show collapseGo false (w ++ ' ' :: joinSep ' ' (v :: rest)) =
        w ++ '_' :: joinSep '_' (v :: rest)
      obtain ⟨hne, hw⟩ := hws w (by simp)
      rw [collapse_word_append w hw hne false]
      congr 1
      rw [collapseGo_false_space]
      congr 1
      obtain ⟨hvne, hv⟩ := (hws v (by simp)).imp id fun a => a
      obtain ⟨cv, v', rfl⟩ := List.exists_cons_of_ne_nil hvne
      have hshape : ∃ t, joinSep ' ' ((cv :: v') :: rest) = cv :: t := by
        cases rest with
        | nil => exact ⟨v', rfl⟩
        | cons r rs => exact ⟨v' ++ ' ' :: joinSep ' ' (r :: rs), rfl⟩
      obtain ⟨t, ht⟩ := hshape
      rw [ht, collapseGo_cons_not_hs true cv t (hv cv (by simp)),
        ← collapseGo_cons_not_hs false cv t (hv cv (by simp)), ← ht]
      exact ih fun x hx => hws x (List.mem_cons_of_mem w hx)

theorem lowerL_eq_self (l : List Char)
    (h : ∀ c ∈ l, ¬(65 ≤ c.toNat ∧ c.toNat ≤ 90)) : lowerL l = l := by
  induction l with
  | nil => rfl
  | cons c t ih =>
    show Char.toLower c :: lowerL t = c :: t
    rw [toLower_eq_self (h c (by simp)),
      ih fun x hx => h x (List.mem_cons_of_mem c hx)]

theorem u2s_eq_self (l : List Char) (h : ∀ c ∈ l, c ≠ '_') : u2s l = l := by
  induction l with
  | nil => rfl
  | cons c t ih =>
    show (if c = '_' then ' ' else c) :: u2s t = c :: t
    rw [if_neg (h c (by simp)),
      ih fun x hx => h x (List.mem_cons_of_mem c hx)]

theorem u2s_append (a b : List Char) : u2s (a ++ b) = u2s a ++ u2s b :=
  List.map_append _ a b

theorem u2s_underscore_cons (l : List Char) :
    u2s ('_' :: l) = ' ' :: u2s l := rfl

theorem u2s_joinSep (ws : List (List Char))
    (hws : ∀ w ∈ ws, ∀ c ∈ w, c ≠ '_') :
    u2s (joinSep '_' ws) = joinSep ' ' ws := by
  induction ws with
  | nil => rfl
  | cons w ws' ih =>
    cases ws' with
    | nil => exact u2s_eq_self w (hws w (by simp))
    | cons v rest =>
      show u2s (w ++ '_' :: joinSep '_' (v :: rest)) =
        w ++ ' ' :: joinSep ' ' (v :: rest)
      rw [u2s_append, u2s_eq_self w (hws w (by simp)), u2s_underscore_cons,
        ih fun x hx => hws x (List.mem_cons_of_mem w hx)]

theorem stripId_of_no_suffix (l : List Char) (h : ¬ idSuffix <:+ l) :
    stripId l = l := by
  unfold stripId
  rw [if_neg (by simpa using h : ¬(idSuffix.isSuffixOf l = true))]

theorem no_idSuffix_of_no_underscore (l : List Char) (h : ∀ c ∈ l, c ≠ '_') :
    ¬ idSuffix <:+ l :=
  fun hs => h '_' (hs.subset (by simp [idSuffix])) rfl

theorem no_idSuffix_joinSep (ws : List (List Char))
    (hws : ∀ w ∈ ws, w ≠ [] ∧ ∀ c ∈ w, c ≠ '_')
    (hlast : ws.getLast? ≠ some ['i', 'd']) :
    ¬ idSuffix <:+ joinSep '_' ws := by
  induction ws with
  | nil =>
    intro hs
    exact absurd (List.suffix_nil.mp hs) (by decide)
  | cons w ws' ih =>
    cases ws' with
    | nil => exact no_idSuffix_of_no_underscore w (hws w (by simp)).2
    | cons v rest =>
      intro hs
      rw [show joinSep '_' (w :: v :: rest) =
        w ++ '_' :: joinSep '_' (v :: rest) from rfl] at hs
      have hrev : idSuffix.reverse <+:
          (w ++ '_' :: joinSep '_' (v :: rest)).reverse :=
        List.reverse_prefix.mpr hs
      rw [List.reverse_append, List.reverse_cons, List.append_assoc] at hrev
      have hJne : joinSep '_' (v :: rest) ≠ [] :=
        joinSep_ne_nil '_' (v :: rest)
          (fun x hx => (hws x (List.mem_cons_of_mem w hx)).1) (by simp)
      cases hJr : (joinSep '_' (v :: rest)).reverse with
      | nil => exact hJne (by simpa using congrArg List.reverse hJr)
      | cons d1 t1 =>
        rw [hJr] at hrev
        obtain ⟨hd1, hrev2⟩ := List.cons_prefix_cons.mp hrev
        cases t1 with
        | nil =>
          obtain ⟨hifalse, -⟩ := List.cons_prefix_cons.mp hrev2
          exact absurd hifalse (by decide)
        | cons d2 t2 =>
          obtain ⟨hd2, hrev3⟩ := List.cons_prefix_cons.mp hrev2
          cases t2 with
          | nil =>
            subst hd1; subst hd2
            have hJ : joinSep '_' (v :: rest) = ['i', 'd'] := by
              have h2 := congrArg List.reverse hJr
              simpa using h2
            cases rest with
            | nil => exact hlast (by simp [show v = ['i', 'd'] from hJ])
            | cons r rs =>
              have hmem : '_' ∈ joinSep '_' (v :: r :: rs) := by
                show '_' ∈ v ++ '_' :: joinSep '_' (r :: rs)
                exact List.mem_append_right v (by simp)
              rw [hJ] at hmem
              exact absurd hmem (by decide)
          | cons d3 t3 =>
            obtain ⟨hd3, -⟩ := List.cons_prefix_cons.mp hrev3
            subst hd1; subst hd2; subst hd3
            have hpre : idSuffix.reverse <+:
                (joinSep '_' (v :: rest)).reverse := by
              rw [hJr]
              exact ⟨t3, rfl⟩
            rw [List.getLast?_cons_cons] at hlast
            exact ih (fun x hx => hws x (List.mem_cons_of_mem w hx)) hlast
              (List.reverse_prefix.mp hpre)

theorem mem_joinSep (sep : Char) (ws : List (List Char)) (c : Char)
    (hc : c ∈ joinSep sep ws) : (∃ w ∈ ws, c ∈ w) ∨ c = sep := by
  induction ws with
  | nil => exact absurd hc (List.not_mem_nil c)
  | cons w ws' ih =>
    cases ws' with
    | nil => exact Or.inl ⟨w, by simp, hc⟩
    | cons v rest =>
      rcases List.mem_append.mp hc with h1 | h2
      · exact Or.inl ⟨w, by simp, h1⟩
      · rcases List.mem_cons.mp h2 with h3 | h4
        · exact Or.inr h3
        · rcases ih h4 with ⟨w2, hw2, hcw2⟩ | hsep
          · exact Or.inl ⟨w2, List.mem_cons_of_mem w hw2, hcw2⟩
          · exact Or.inr hsep

theorem joinSep_getLast?_mem (sep : Char) (ws : List (List Char))
    (hws : ∀ w ∈ ws, w ≠ []) (c : Char)
    (hc : (joinSep sep ws).getLast? = some c) : ∃ w ∈ ws, c ∈ w := by
  induction ws with
  | nil => exact Option.noConfusion hc
  | cons w ws' ih =>
    cases ws' with
    | nil => exact ⟨w, by simp, List.mem_of_getLast?_eq_some hc⟩
    | cons v rest =>
      have hJne : joinSep sep (v :: rest) ≠ [] :=
        joinSep_ne_nil sep (v :: rest)
          (fun x hx => hws x (List.mem_cons_of_mem w hx)) (by simp)
      obtain ⟨cj, tj, hcj⟩ := List.exists_cons_of_ne_nil hJne
      have hstep : (joinSep sep (w :: v :: rest)).getLast? =
          (joinSep sep (v :: rest)).getLast? := by
        rw [show joinSep sep (w :: v :: rest) =
          w ++ sep :: joinSep sep (v :: rest) from rfl]
        rw [List.getLast?_append, hcj, List.getLast?_cons_cons]
        cases hx : (cj :: tj).getLast? with
        | none => exact absurd (List.getLast?_eq_none_iff.mp hx) (by simp)
        | some x => rw [Option.or_some]
      rw [hstep, hcj] at hc
      obtain ⟨w2, hw2, hcw2⟩ :=
        ih (fun x hx => hws x (List.mem_cons_of_mem w hx)) (by rw [hcj]; exact hc)
      exact ⟨w2, List.mem_cons_of_mem w hw2, hcw2⟩

theorem joinSep_cons_head (sep : Char) (cv : Char) (v' : List Char)
    (rest : List (List Char)) :
    ∃ t, joinSep sep ((cv :: v') :: rest) = cv :: t := by
  cases rest with
  | nil => exact ⟨v', rfl⟩
  | cons r rs => exact ⟨v' ++ sep :: joinSep sep (r :: rs), rfl⟩

theorem humanizeL_humanizedOf (c0 : Char) (w0 : List Char)
    (rest : List (List Char))
    (hc : 97 ≤ c0.toNat ∧ c0.toNat ≤ 122)
    (hw0 : wordChars w0)
    (hrest : ∀ w ∈ rest, w ≠ [] ∧ wordChars w)
    (hlast : ((c0 :: w0) :: rest).getLast? ≠ some ['i', 'd']) :
    humanizeL (humanizedOf ((c0 :: w0) :: rest)) =
      humanizedOf ((c0 :: w0) :: rest) := by
  have hwords : ∀ w ∈ (c0 :: w0) :: rest, w ≠ [] ∧ wordChars w := by
    intro w hw
    rcases List.mem_cons.mp hw with h1 | h2
    · subst h1
      refine ⟨by simp, ?_⟩
      intro c hcw
      rcases List.mem_cons.mp hcw with h3 | h4
      · subst h3; simp [isLowerDigit]; omega
      · exact hw0 c h4
    · exact hrest w h2
  have hld_toNat : ∀ c : Char, isLowerDigit c = true →
      (97 ≤ c.toNat ∧ c.toNat ≤ 122) ∨ (48 ≤ c.toNat ∧ c.toNat ≤ 57) := by
    intro c h
    simpa [isLowerDigit] using h
  obtain ⟨z', hz⟩ := joinSep_cons_head ' ' c0 w0 rest
  have hupper_toNat := toUpper_toNat hc.1 hc.2
  have hzchar_toNat : ∀ c ∈ joinSep ' ' ((c0 :: w0) :: rest),
      (97 ≤ c.toNat ∧ c.toNat ≤ 122) ∨ (48 ≤ c.toNat ∧ c.toNat ≤ 57) ∨
        c.toNat = 32 := by
    intro c hcz
    rcases mem_joinSep ' ' _ c hcz with ⟨w, hw, hcw⟩ | hsp
    · rcases hld_toNat c ((hwords w hw).2 c hcw) with h1 | h1
      exacts [Or.inl h1, Or.inr (Or.inl h1)]
    · subst hsp; exact Or.inr (Or.inr rfl)
  have hy : humanizedOf ((c0 :: w0) :: rest) = Char.toUpper c0 :: z' := by
    unfold humanizedOf
    rw [hz]
    rfl
  have hlastz : ∀ c, (joinSep ' ' ((c0 :: w0) :: rest)).getLast? = some c →
      isJsSpace c = false := by
    intro c hlast2
    obtain ⟨w, hwmem, hcw⟩ := joinSep_getLast?_mem ' ' _
      (fun x hx => (hwords x hx).1) c hlast2
    rcases hld_toNat c ((hwords w hwmem).2 c hcw) with h1 | h1 <;>
      · simp [isJsSpace]; omega
  have htrim_y : trimL (Char.toUpper c0 :: z') = Char.toUpper c0 :: z' := by
    apply trimL_eq_self
    · intro c hhead
      simp only [List.head?_cons, Option.some.injEq] at hhead
      subst hhead
      simp [isJsSpace]; omega
    · intro c hlast2
      cases hz2 : z' with
      | nil =>
        rw [hz2] at hlast2
        simp only [List.getLast?_singleton, Option.some.injEq] at hlast2
        subst hlast2
        simp [isJsSpace]; omega
      | cons d t =>
        rw [hz2, List.getLast?_cons_cons] at hlast2
        exact hlastz c (by rw [hz, hz2, List.getLast?_cons_cons]; exact hlast2)
  have hnoupper_z' : ∀ c ∈ z', isUpperC c = false := by
    intro c hcz
    have hcz2 : c ∈ joinSep ' ' ((c0 :: w0) :: rest) := by
      rw [hz]; exact List.mem_cons_of_mem c0 hcz
    rcases hzchar_toNat c hcz2 with h | h | h <;> · simp [isUpperC]; omega
  have hcamel_y : camelIns (Char.toUpper c0 :: z') = Char.toUpper c0 :: z' := by
    rw [camelIns_cons_not_lower _ _ (by simp [isLowerDigit]; omega),
      camelIns_of_no_upper z' hnoupper_z']
  have hcollapse_z : collapseGo false (joinSep ' ' ((c0 :: w0) :: rest)) =
      joinSep '_' ((c0 :: w0) :: rest) := by
    apply collapse_joinSep
    intro w hw
    refine ⟨(hwords w hw).1, ?_⟩
    intro c hcw
    rcases hld_toNat c ((hwords w hw).2 c hcw) with h1 | h1 <;>
      · simp [isHS, isJsSpace]; omega
  have hc0_not_hs : isHS c0 = false := by simp [isHS, isJsSpace]; omega
  have hcu_not_hs : isHS (Char.toUpper c0) = false := by
    simp [isHS, isJsSpace]; omega
  have hmid : c0 :: collapseGo false z' =
      joinSep '_' ((c0 :: w0) :: rest) := by
    rw [← collapseGo_cons_not_hs false c0 z' hc0_not_hs, ← hz]
    exact hcollapse_z
  have hcollapse_y : collapseGo false (Char.toUpper c0 :: z') =
      Char.toUpper c0 :: collapseGo false z' :=
    collapseGo_cons_not_hs false _ z' hcu_not_hs
  have hmchar_toNat : ∀ c ∈ joinSep '_' ((c0 :: w0) :: rest),
      (97 ≤ c.toNat ∧ c.toNat ≤ 122) ∨ (48 ≤ c.toNat ∧ c.toNat ≤ 57) ∨
        c.toNat = 95 := by
    intro c hcm
    rcases mem_joinSep '_' _ c hcm with ⟨w, hw, hcw⟩ | hsp
    · rcases hld_toNat c ((hwords w hw).2 c hcw) with h1 | h1
      exacts [Or.inl h1, Or.inr (Or.inl h1)]
    · subst hsp; exact Or.inr (Or.inr rfl)
  have hlower_m : lowerL (joinSep '_' ((c0 :: w0) :: rest)) =
      joinSep '_' ((c0 :: w0) :: rest) := by
    apply lowerL_eq_self
    intro c hcm
    rcases hmchar_toNat c hcm with h | h | h <;> omega
  have hlower_y : lowerL (Char.toUpper c0 :: collapseGo false z') =
      joinSep '_' ((c0 :: w0) :: rest) := by
    show Char.toLower (Char.toUpper c0) :: lowerL (collapseGo false z') = _
    rw [toLower_toUpper_eq_self hc.1 hc.2]
    have h2 : lowerL (c0 :: collapseGo false z') =
        c0 :: lowerL (collapseGo false z') := by
      show Char.toLower c0 :: _ = _
      rw [toLower_eq_self (by omega)]
      rfl
    rw [← h2, hmid, hlower_m]
  have hm_no_upper : camelIns (joinSep '_' ((c0 :: w0) :: rest)) =
      joinSep '_' ((c0 :: w0) :: rest) := by
    apply camelIns_of_no_upper
    intro c hcm
    rcases hmchar_toNat c hcm with h | h | h <;> · simp [isUpperC]; omega
  have hm_words_no_us : ∀ w ∈ (c0 :: w0) :: rest, ∀ c ∈ w, c ≠ '_' := by
    intro w hw c hcw heq
    have h1 := (hwords w hw).2 c hcw
    rw [heq] at h1
    exact absurd h1 (by decide)
  have hstrip_m : stripId (joinSep '_' ((c0 :: w0) :: rest)) =
      joinSep '_' ((c0 :: w0) :: rest) :=
    stripId_of_no_suffix _ (no_idSuffix_joinSep _
      (fun w hw => ⟨(hwords w hw).1, hm_words_no_us w hw⟩) hlast)
  have hu2s_m : u2s (joinSep '_' ((c0 :: w0) :: rest)) =
      joinSep ' ' ((c0 :: w0) :: rest) :=
    u2s_joinSep _ hm_words_no_us
  have hz_no_us : ∀ c ∈ joinSep ' ' ((c0 :: w0) :: rest), c ≠ '_' := by
    intro c hcz heq
    rcases hzchar_toNat c hcz with h | h | h <;>
      · rw [heq] at h; revert h; decide
  have hstrip_z : stripId (joinSep ' ' ((c0 :: w0) :: rest)) =
      joinSep ' ' ((c0 :: w0) :: rest) :=
    stripId_of_no_suffix _ (no_idSuffix_of_no_underscore _ hz_no_us)
  have hu2s_z : u2s (joinSep ' ' ((c0 :: w0) :: rest)) =
      joinSep ' ' ((c0 :: w0) :: rest) :=
    u2s_eq_self _ hz_no_us
  have htrim_z : trimL (joinSep ' ' ((c0 :: w0) :: rest)) =
      joinSep ' ' ((c0 :: w0) :: rest) := by
    apply trimL_eq_self
    · intro c hhead
      rw [hz] at hhead
      simp only [List.head?_cons, Option.some.injEq] at hhead
      subst hhead
      simp [isJsSpace]; omega
    · exact hlastz
  rw [hy]
  unfold humanizeL
  rw [htrim_y, hcamel_y, hcollapse_y, hlower_y, hm_no_upper, hstrip_m,
    hu2s_m, hstrip_z, hu2s_z, htrim_z, hz]
  rfl

/-- C6 (corrected): the claim asserts idempotence on every already-humanized
string; but `"Some id"` — which is already humanized (single leading
capital, space-separated lowercase words, no trailing `"_id"`) and lies in
the image of humanize, being `humanize "some id id"` — maps to `"Some"`,
because the space before the final word `"id"` becomes an underscore inside
the pipeline and the `_id`-strip fires. -/
theorem humanize_idempotence_counterexample :
    humanize "some id id" = "Some id" ∧ humanize "Some id" = "Some" ∧
      humanize (humanize (humanize "some id id")) ≠ humanize "some id id" := by
  refine ⟨by decide, by decide, by decide⟩

/-- C6 (amended): humanize is the identity — hence idempotent — on every
already-humanized string whose final word is not the bare word `"id"`: for
lowercase/digit words joined by single spaces with the first letter
capitalized, `humanize x = x` and `humanize (humanize x) = x`. -/
theorem humanize_fix_on_humanized (c0 : Char) (w0 : List Char)
    (rest : List (List Char))
    (hc : 97 ≤ c0.toNat ∧ c0.toNat ≤ 122)
    (hw0 : wordChars w0)
    (hrest : ∀ w ∈ rest, w ≠ [] ∧ wordChars w)
    (hlast : ((c0 :: w0) :: rest).getLast? ≠ some ['i', 'd']) :
    humanize ⟨humanizedOf ((c0 :: w0) :: rest)⟩ =
      (⟨humanizedOf ((c0 :: w0) :: rest)⟩ : String) ∧
      humanize (humanize ⟨humanizedOf ((c0 :: w0) :: rest)⟩) =
        (⟨humanizedOf ((c0 :: w0) :: rest)⟩ : String) := by
  have h1 : humanize ⟨humanizedOf ((c0 :: w0) :: rest)⟩ =
      (⟨humanizedOf ((c0 :: w0) :: rest)⟩ : String) := by
    show (⟨humanizeL (humanizedOf ((c0 :: w0) :: rest))⟩ : String) = _
    rw [humanizeL_humanizedOf c0 w0 rest hc hw0 hrest hlast]
  exact ⟨h1, by rw [h1, h1]⟩

/-- Witness for C6: the fixed-point theorem applied to the concrete
already-humanized string `"Some item"`. -/
theorem humanize_fix_on_humanized_witness :
    humanize (humanize ⟨humanizedOf [['s', 'o', 'm', 'e'], ['i', 't', 'e', 'm']]⟩) =
      (⟨humanizedOf [['s', 'o', 'm', 'e'], ['i', 't', 'e', 'm']]⟩ : String) :=
  (humanize_fix_on_humanized 's' ['o', 'm', 'e'] [['i', 't', 'e', 'm']]
    (by decide) (by simp only [wordChars]; decide)
    (by simp only [wordChars]; decide) (by decide)).2
